import Mathlib

/-!
Shallow embedding of the youtube-mp3 command-line utility (util.js / logging.js /
the main script) together with proofs about its format selection, title parsing,
iTunes metadata resolution, exit codes and time formatting.

JavaScript strings are modelled as `List Char`; JavaScript numbers that are used
as non-negative integers (bitrates, byte counts, seconds) are modelled as `Nat`.
Absent (`undefined`) object attributes are modelled with `Option`.
-/

/-! ## Data model -/

/-- One available source encoding, as supplied by the video-retrieval library.
`audioBitrate` is the optional audio bitrate in kbps (`none` = attribute absent).
`clen` is the optional content length: the source stores it as a string and runs
`parseInt` on it; `some n` stands for a non-empty digit string whose numeric
value is `n` (note the JS string "0" is truthy, hence `some 0` is *not* skipped
by the `!format.clen` guard), `none` stands for an absent or empty string. -/
structure StreamFormat where
  itag : Nat
  audioBitrate : Option Nat
  clen : Option Nat
  container : Option (List Char)
deriving Repr, DecidableEq

/-- The object returned by `ytdl.getInfo`; the selectors iterate over its
`formats` array (`for (var i in availableFormats.formats)`). -/
structure VideoInfo where
  formats : List StreamFormat
deriving Repr, DecidableEq

/-- `format.audioBitrate || 0` : JS `||` yields 0 when the attribute is absent
(`undefined` is falsy); it also maps an explicit 0 to 0. -/
def bitrateOf (f : StreamFormat) : Nat :=
  f.audioBitrate.getD 0

/-- `parseInt(format.clen)` where the entry is known to have a content length;
defaults to 0 when absent (only used on entries whose `clen` is present). -/
def clenVal (f : StreamFormat) : Nat :=
  f.clen.getD 0

/-! ## Format selector (util.js, `highestBitrateFormat` / `smallestSizeFormat`) -/

/-- Loop of `highestBitrateFormat`: state is the running `highestBitrate` and
`targetFormat`; an entry is taken when `bitrate > highestBitrate` (strict, so
ties keep the first encountered). -/
def hbfGo : List StreamFormat → Nat → Option StreamFormat → Option StreamFormat
  | [], _, target => target
  | f :: rest, highest, target =>
    if highest < bitrateOf f then hbfGo rest (bitrateOf f) (some f)
    else hbfGo rest highest target

/-- util.js `highestBitrateFormat`: returns the format with the highest audio
bitrate, starting from `highestBitrate = 0` and `targetFormat = null`. -/
def highestBitrateFormat (availableFormats : VideoInfo) : Option StreamFormat :=
  hbfGo availableFormats.formats 0 none

/-- Stands for `Number.MAX_VALUE`, the initial value of `smallestSizeBytes`.
`Number.MAX_VALUE = (2 - 2⁻⁵²)·2¹⁰²³ < 2¹⁰²⁴`; every content length that an
actual JS number can hold is far below this bound. -/
def numberMaxValue : Nat := 2 ^ 1024

/-- Loop of `smallestSizeFormat`: entries with a falsy `audioBitrate` (absent
or 0) or a falsy `clen` (absent/empty string) are skipped (`continue`); an
entry is taken when `smallestSizeBytes > fileSize` (strict, ties keep the
first encountered). -/
def ssfGo : List StreamFormat → Nat → Option StreamFormat → Option StreamFormat
  | [], _, target => target
  | f :: rest, smallest, target =>
    if bitrateOf f == 0 then ssfGo rest smallest target
    else
      match f.clen with
      | none => ssfGo rest smallest target
      | some fileSize =>
        if fileSize < smallest then ssfGo rest fileSize (some f)
        else ssfGo rest smallest target

/-- util.js `smallestSizeFormat`: returns the format with the smallest parsed
content length among entries with truthy `audioBitrate` and truthy `clen`,
starting from `smallestSizeBytes = Number.MAX_VALUE`, `targetFormat = null`. -/
def smallestSizeFormat (availableFormats : VideoInfo) : Option StreamFormat :=
  ssfGo availableFormats.formats numberMaxValue none

/-- An entry survives both `continue` guards of `smallestSizeFormat` exactly
when its `audioBitrate` is truthy and its `clen` is truthy. -/
def qualifies (f : StreamFormat) : Bool :=
  !(bitrateOf f == 0) && f.clen.isSome

/-- The greatest `audioBitrate || 0` occurring in a format list (0 for `[]`). -/
def maxAudioBitrate (l : List StreamFormat) : Nat :=
  l.foldr (fun f m => max (bitrateOf f) m) 0

/-- The least content length among qualifying entries of a format list,
`numberMaxValue` when no entry qualifies (mirrors the sentinel). -/
def minQualifiedClen (l : List StreamFormat) : Nat :=
  l.foldr (fun f m => if qualifies f then min (clenVal f) m else m) numberMaxValue

/-! ## String helpers

JS strings are `List Char`. `String.prototype.trim`, `slice`, `startsWith`,
`endsWith` and the case-insensitive regex flag are modelled below. -/

/-- Lower-cases an ASCII letter, leaves every other character unchanged; models
the effect of the regex `i` flag on the ASCII texts handled here. -/
def asciiLower (c : Char) : Char :=
  if 'A' ≤ c ∧ c ≤ 'Z' then Char.ofNat (c.toNat + 32) else c

/-- Membership in the character class `[\S ]`: any non-whitespace character or
the plain space (so every character except tab, newline and the other
whitespace characters). -/
def inCls (c : Char) : Bool :=
  c == ' ' || !c.isWhitespace

/-- `String.prototype.trim()`: strips leading and trailing whitespace. -/
def jsTrim (s : List Char) : List Char :=
  ((s.dropWhile Char.isWhitespace).reverse.dropWhile Char.isWhitespace).reverse

/-- util.js `trimString(string, character)`: drops the first character if the
string starts with `character`, then drops the last character if the result
ends with `character`, then trims whitespace. -/
def trimString (s : List Char) (character : Char) : List Char :=
  let s1 := if s.head? == some character then s.drop 1 else s
  let s2 := if s1.getLast? == some character then s1.dropLast else s1
  jsTrim s2

/-- `escape-string-regexp`: prefixes the regex metacharacters
`| \ { } ( ) [ ] ^ $ + * ? .` with a backslash and rewrites `-` to `\x2d`. -/
def escChar (c : Char) : List Char :=
  if c ∈ ['|', '\\', Char.ofNat 0x7b, Char.ofNat 0x7d, '(', ')', '[', ']',
            '^', '$', '+', '*', '?', '.'] then ['\\', c]
  else if c == '-' then ['\\', 'x', '2', 'd']
  else [c]

/-- `escapeStringRegexp` applied to a whole string. -/
def escapeStringRegexp (s : List Char) : List Char :=
  (s.map escChar).flatten

/-- Case-insensitive equality of the lower-cased images, as tested by a
case-insensitive regex made of literal characters. -/
def ciSuffix (sub s : List Char) : Bool :=
  (sub.map asciiLower).isSuffixOf (s.map asciiLower)

/-- Whether `new RegExp('[\\S ](' + escapeStringRegexp(substring) + ')$', 'i')`
matches `s`: the string must end with the literal `substring`
(case-insensitively) preceded by one `[\S ]` character. -/
def removeTrailingMatches (s sub : List Char) : Bool :=
  sub.length + 1 ≤ s.length
    && ciSuffix sub s
    && (match (s.take (s.length - sub.length)).getLast? with
        | some c => inCls c
        | none => false)

/-- util.js `removeTrailing(string, substring)`: reassigns
`substring = escapeStringRegexp(substring)`, tests the regex above, and on a
match keeps `string.slice(0, -substring.length + 1)` — the length used is that
of the **escaped** substring — then trims whitespace. -/
def removeTrailing (s sub : List Char) : List Char :=
  let escaped := escapeStringRegexp sub
  let s' := if removeTrailingMatches s sub then
              s.take (s.length - (escaped.length - 1))
            else s
  jsTrim s'

/-! ## The title regex

`parseVideoTitle` builds `new RegExp('([\\S ]+) (' + A + ') ([\\S ]+)')` where
`A` is a `|`-free list of literal alternatives, and runs a single unanchored
`exec`. The backtracking search of that exact pattern shape is implemented
here: start positions are tried left to right; at a position the greedy
`([\S ]+)` group is tried from its longest possible extent downward; the
alternatives are tried in their given order; the second `([\S ]+)` group
greedily takes the maximal `[\S ]` run (at least one character) and the
pattern ends there. Alternatives are given in decoded form (escaping a string
and decoding the escapes is the identity on what the literal matches). -/

/-- Try each literal alternative in order at the current point: the text must
start with the alternative followed by the literal space of the pattern;
returns the alternative and the text after that space. -/
def firstAlt : List (List Char) → List Char → Option (List Char × List Char)
  | [], _ => none
  | a :: rest, t =>
    if a.isPrefixOf t && (t.drop a.length).head? == some ' ' then
      some (a, t.drop (a.length + 1))
    else firstAlt rest t

/-- Match ` (alt1|…|altk) ` (space, alternative, space) at the start of `t`;
returns the matched alternative and the remaining text. -/
def trySep (alts : List (List Char)) : List Char → Option (List Char × List Char)
  | c :: t => if c == ' ' then firstAlt alts t else none
  | [] => none

/-- Greedy backtracking over the length of the first `([\S ]+)` group: `n` is
the candidate length, tried downward; on success returns the three captured
groups (first group, separator, second group). -/
def tryG1 (alts : List (List Char)) (s : List Char) : Nat → Option (List Char × List Char × List Char)
  | 0 => none
  | n + 1 =>
    match trySep alts (s.drop (n + 1)) with
    | some (sep, rest) =>
      let g3 := rest.takeWhile inCls
      if g3.isEmpty then tryG1 alts s n
      else some (s.take (n + 1), sep, g3)
    | none => tryG1 alts s n

/-- One match attempt at a fixed start position: the first group can extend at
most over the maximal `[\S ]` run starting there. -/
def execAt (alts : List (List Char)) (s : List Char) : Option (List Char × List Char × List Char) :=
  tryG1 alts s (s.takeWhile inCls).length

/-- Unanchored `exec`: try successive start positions left to right. -/
def execSearch (alts : List (List Char)) : List Char → Option (List Char × List Char × List Char)
  | [] => none
  | c :: cs =>
    match execAt alts (c :: cs) with
    | some r => some r
    | none => execSearch alts cs

/-! ## Title parsing (`parseVideoTitle`, util.js module of the ESM revision
and its predecessor inside the main script) -/

/-- Result of `parseVideoTitle` / `processMetadata`'s title split:
`{success, artist?, title?}`. -/
structure TitleMeta where
  success : Bool
  artist : Option (List Char)
  title : Option (List Char)
deriving Repr, DecidableEq

/-- Body of the main-script predecessor of `parseVideoTitle` (the revision with
`loadItunesMeta`, where `util = require('./util.js')` *is* bound and provides
`trimString` / `removeTrailing`), with the list of literal alternatives of the
middle group as a parameter: run the single `exec`; on a match trim both outer
groups, strip one leading/trailing `"` and `'` from the title, then run the
four `removeTrailing` phrases in their source order. -/
def parseTitleCore (alts : List (List Char)) (videoTitle : List Char) : TitleMeta :=
  match execSearch alts videoTitle with
  | none => ⟨false, none, none⟩
  | some (g1, _, g3) =>
    let artist := jsTrim g1
    let t1 := trimString (jsTrim g3) '"'
    let t2 := trimString t1 (Char.ofNat 39)
    let t3 := removeTrailing t2 "(official video)".data
    let t4 := removeTrailing t3 "official video".data
    let t5 := removeTrailing t4 "high quality".data
    let t6 := removeTrailing t5 "lyrics".data
    ⟨true, some artist, some t6⟩

/-- Outcome of calling a JavaScript function that may throw: either a normal
return value or a thrown exception (carrying the error text). -/
inductive JsResult (α : Type) where
  | ok (value : α)
  | thrown (message : List Char)
deriving Repr, DecidableEq

/-- The exception thrown by the ESM `parseVideoTitle` on every matching title:
its module's only import is `escapeStringRegexp`, so the identifier `util` in
`util.trimString(meta.title, '"')` is unbound. -/
def referenceErrorUtil : List Char :=
  "ReferenceError: util is not defined".data

/-- util.js (ESM revision) `parseVideoTitle(videoTitle, separators)`: the code
computes `escapedSeps = separators.map(escapeStringRegexp)` but then splices
the **array** `escapedSeps` into the pattern string
`'([\\S ]+) (' + escapedSeps + ') ([\\S ]+)'`; JavaScript coerces the array
with `Array.prototype.toString`, joining the escaped tokens with a comma. The
middle group is therefore one single literal alternative: the separators
joined by `,` (the escaped `separators.join('|')` computed on the previous
line is never used). On no match the function returns `{success: false}`.
On a match it sets `meta.artist` / `meta.title` from the trimmed groups and
then calls `util.trimString` — but this ESM module never imports or defines
`util`, so the call throws `ReferenceError: util is not defined` and the
function never returns (modelled as `JsResult.thrown`). -/
def parseVideoTitle (videoTitle : List Char) (separators : List (List Char)) :
    JsResult TitleMeta :=
  match execSearch [List.intercalate [','] separators] videoTitle with
  | none => .ok ⟨false, none, none⟩
  | some _ => .thrown referenceErrorUtil

/-- The predecessor `parseVideoTitle(videoTitle)` inside the main script (the
revision with `loadItunesMeta`): there the escaped separators are joined with
`'|'` and the joined string is spliced into the pattern, so the middle group
is a genuine alternation of the separator tokens; `util` is bound there, so
the post-processing helpers run. -/
def parseVideoTitleLegacy (videoTitle : List Char) (separators : List (List Char)) : TitleMeta :=
  parseTitleCore separators videoTitle

/-! ## `parseSongName` (util.js) -/

/-- The `media` attribute of `videoDetails`: both fields may be absent. -/
structure MediaInfo where
  artist : Option (List Char)
  song : Option (List Char)
deriving Repr, DecidableEq

/-- The `videoDetails` object: `media` itself may be absent. -/
structure VideoDetails where
  title : List Char
  media : Option MediaInfo
deriving Repr, DecidableEq

/-- JS string conversion applied by `+` to a possibly-`undefined` operand:
`undefined` prints as `"undefined"`. -/
def jsStr : Option (List Char) → List Char
  | some s => s
  | none => "undefined".data

/-- util.js `parseSongName(videoDetails)`: `artist = media && media.artist`,
`song = media && media.song`, `syntheticTitle = artist + ' - ' + song`,
returning `syntheticTitle || videoDetails.title` (the fallback fires only if
`syntheticTitle` is the empty string). -/
def parseSongName (videoDetails : VideoDetails) : List Char :=
  let artist := videoDetails.media.bind MediaInfo.artist
  let song := videoDetails.media.bind MediaInfo.song
  let syntheticTitle := jsStr artist ++ " - ".data ++ jsStr song
  if syntheticTitle = [] then videoDetails.title else syntheticTitle

/-- The synthetic `artist + ' - ' + song` string built by `parseSongName`. -/
def syntheticTitleOf (videoDetails : VideoDetails) : List Char :=
  jsStr (videoDetails.media.bind MediaInfo.artist) ++ " - ".data
    ++ jsStr (videoDetails.media.bind MediaInfo.song)

/-! ## iTunes metadata resolution (`loadItunesMeta`, main script) -/

/-- One entry of the parsed `results` array of the iTunes search response. -/
structure ItunesResult where
  kind : List Char
  trackName : List Char
  artistName : List Char
  collectionName : List Char
  artworkUrl100 : List Char
  trackNumber : Nat
  trackCount : Nat
  primaryGenreName : List Char
  releaseDate : List Char
deriving Repr, DecidableEq

/-- Value returned by `loadItunesMeta`: `{success:false}` or the mapped record
with `success:true`. -/
inductive ItunesLookup where
  | failure
  | success (title artist album albumUrl : List Char)
      (trackNum trackCount : Nat) (genre date : List Char)
deriving Repr, DecidableEq

/-- Whether one character of the patterns fed to `new RegExp(…, 'i')` matches a
text character: `.` is the wildcard, anything else matches itself
case-insensitively. This models `String.prototype.search` for the pattern
subset exercised by the iTunes names handled here (literal characters and the
`.` metacharacter). -/
def rxCharMatch (p c : Char) : Bool :=
  p == '.' || asciiLower p == asciiLower c

/-- Whether the pattern matches a prefix of the text. -/
def rxAccepts : List Char → List Char → Bool
  | [], _ => true
  | _ :: _, [] => false
  | p :: ps, c :: cs => rxCharMatch p c && rxAccepts ps cs

/-- `text.search(new RegExp(pattern, 'i')) >= 0`: the pattern matches at some
position of the text. -/
def regexSearchCI (pattern : List Char) : List Char → Bool
  | [] => rxAccepts pattern []
  | c :: cs => rxAccepts pattern (c :: cs) || regexSearchCI pattern cs

/-- The filter predicate of `loadItunesMeta`: the entry is kept when its `kind`
is `'song'` and `searchTerm.search(new RegExp(e.trackName, 'i'))` and the same
test for `e.artistName` both succeed. -/
def itunesAccept (searchTerm : List Char) (e : ItunesResult) : Bool :=
  e.kind == "song".data
    && regexSearchCI e.trackName searchTerm
    && regexSearchCI e.artistName searchTerm

/-- Main script `loadItunesMeta(searchTerm)`, with the HTTP response supplied
as inputs (`statusCode` and the parsed `results` array): non-200 → failure;
otherwise `results.filter(…).shift()` takes the first accepted entry; no entry
→ failure; else the remote fields are mapped onto the local shape, the release
date truncated to its first four characters. -/
def loadItunesMeta (statusCode : Nat) (results : List ItunesResult)
    (searchTerm : List Char) : ItunesLookup :=
  if statusCode ≠ 200 then .failure
  else
    match (results.filter (itunesAccept searchTerm)).head? with
    | none => .failure
    | some m => .success m.trackName m.artistName m.collectionName
        m.artworkUrl100 m.trackNumber m.trackCount m.primaryGenreName
        (m.releaseDate.take 4)

/-- Whether `needle` occurs as a contiguous sublist of `hay`. -/
def listContains (needle : List Char) : List Char → Bool
  | [] => needle.isEmpty
  | c :: cs => needle.isPrefixOf (c :: cs) || listContains needle cs

/-- The spec's acceptance criterion, stated in its own words: the search term
contains the name as a case-insensitive substring. Used only to compare the
spec's description with what the code does. -/
def specContainsCI (searchTerm name : List Char) : Bool :=
  listContains (name.map asciiLower) (searchTerm.map asciiLower)

/-! ## `prettyTime` (util.js) -/

/-- The `while (timeInSeconds >= 60) { mins += 1; timeInSeconds -= 60; }` loop
of `prettyTime`, on non-negative integer inputs. -/
def prettyTimeLoop (mins t : Nat) : Nat × Nat :=
  if 60 ≤ t then prettyTimeLoop (mins + 1) (t - 60) else (mins, t)
termination_by t
decreasing_by omega

/-- util.js `prettyTime(timeInSeconds)` on a non-negative integer number of
seconds (`Math.round` is the identity there): zero-pads the remaining seconds
below 10 and renders `mins + ':' + out`. -/
def prettyTime (timeInSeconds : Nat) : List Char :=
  let p := prettyTimeLoop 0 timeInSeconds
  let out := if p.2 < 10 then '0' :: (toString p.2).data else (toString p.2).data
  (toString p.1).data ++ ':' :: out

/-- A JavaScript number as seen by the loop condition: a finite value or
`Infinity` (the non-finite input of the claim). Finite values are taken in ℚ —
`ffprobe` durations can be fractional. -/
inductive JsTime where
  | fin (t : ℚ)
  | inf
deriving DecidableEq

/-- The loop guard `timeInSeconds >= 60`: true for every finite value ≥ 60 and
always true for `Infinity`. -/
def jsGe60 : JsTime → Bool
  | .fin t => 60 ≤ t
  | .inf => true

/-- The loop body `timeInSeconds -= 60`: `Infinity - 60` is `Infinity`. -/
def jsSub60 : JsTime → JsTime
  | .fin t => .fin (t - 60)
  | .inf => .inf

/-! ## Exit codes (logging.js `Log.error`, main script `main` /
`downloadVideo` / `convertVideoToMp3`) -/

/-- The four classes of fatal conditions named by the spec. -/
inductive FailureClass where
  | usage
  | download
  | transcode
  | generic
deriving DecidableEq

/-- logging.js `Log.error`: after printing, it always runs `process.exit(25)`,
whatever the error was. -/
def logErrorExitCode : Nat := 25

/-- The sequence of `process.exit` calls the program would reach on a fatal
failure of each class, in program order; the first call terminates the
process, so the later entries are unreachable:
* usage: `main` runs `process.exit(55)` directly when the URL is missing;
* download: `downloadVideo`'s catch runs `log.error(…)` (which exits 25) and
  only then `process.exit(54)`;
* transcode: `convertVideoToMp3`'s error handler runs `log.error(…)` and only
  then `process.exit(53)`;
* generic (any other fatal runtime error): `log.error(…)` alone. -/
def exitSequence : FailureClass → List Nat
  | .usage => [55]
  | .download => [logErrorExitCode, 54]
  | .transcode => [logErrorExitCode, 53]
  | .generic => [logErrorExitCode]

/-- The exit code the process actually terminates with: the first
`process.exit` reached. -/
def processExitCode (c : FailureClass) : Option Nat :=
  (exitSequence c).head?

/-! ## Scratch checks of the concrete evaluations -/

example : parseVideoTitleLegacy "Artist - Song (Official Video)".data ["-".data] =
    ⟨true, some "Artist".data, some "Song".data⟩ := by decide

example : parseVideoTitleLegacy "Band - \"Track Name\" - Lyrics".data ["-".data] =
    ⟨true, some "Band - \"Track Name\"".data, some "Lyrics".data⟩ := by decide

example : parseVideoTitleLegacy "Artist - Song Lyrics".data ["-".data] =
    ⟨true, some "Artist".data, some "Song L".data⟩ := by decide

example : removeTrailing "Song Lyrics".data "lyrics".data = "Song L".data := by decide

example : parseVideoTitle "Artist - Song Lyrics".data ["-".data] =
    .thrown referenceErrorUtil := by decide

example : parseVideoTitle "Artist — Song".data ["-".data, "—".data] =
    .ok ⟨false, none, none⟩ := by decide

example : parseVideoTitleLegacy "Artist — Song".data ["-".data, "—".data] =
    ⟨true, some "Artist".data, some "Song".data⟩ := by decide

/-! ## Proofs -/

theorem filter_head?_eq_find? (p : ItunesResult → Bool) (l : List ItunesResult) :
    (l.filter p).head? = l.find? p := by
  induction l with
  | nil => rfl
  | cons e rest ih =>
    by_cases h : p e
    · simp [List.filter_cons, h]
    · simp [List.filter_cons, h, ih]

/-- **C7, counterexample.** `loadItunesMeta` accepts an entry whose track name
is *not* contained in the search term as a case-insensitive substring: the
track name is used as a regular-expression pattern, so its `.` matches the `B`
of the search term. The claim's substring-containment condition rejects this
entry, the code accepts it. -/
theorem loadItunesMeta_substring_counterexample :
    loadItunesMeta 200
        [⟨"song".data, "A.C".data, "X".data, [], [], 1, 9, "Pop".data,
          "2007-01-09T08:00:00Z".data⟩] "ABC X".data =
      .success "A.C".data "X".data [] [] 1 9 "Pop".data "2007".data ∧
    specContainsCI "ABC X".data "A.C".data = false := by decide

/-- **C7, amended.** For every 200-status response with a parsed result list,
`loadItunesMeta` returns success with exactly the first entry whose `kind` is
`'song'` and whose track name and artist name — interpreted as
case-insensitive regular-expression patterns via `String.search` — each match
somewhere in the search term (plain case-insensitive substring containment
when the names hold no regex metacharacters); the release date is truncated to
its first four characters. If no entry passes, it returns failure. -/
theorem loadItunesMeta_spec (results : List ItunesResult) (searchTerm : List Char) :
    loadItunesMeta 200 results searchTerm =
      match results.find? (fun e => e.kind == "song".data
          && regexSearchCI e.trackName searchTerm
          && regexSearchCI e.artistName searchTerm) with
      | none => .failure
      | some m => .success m.trackName m.artistName m.collectionName
          m.artworkUrl100 m.trackNumber m.trackCount m.primaryGenreName
          (m.releaseDate.take 4) := by
  have h : loadItunesMeta 200 results searchTerm =
      match (results.filter (itunesAccept searchTerm)).head? with
      | none => .failure
      | some m => .success m.trackName m.artistName m.collectionName
          m.artworkUrl100 m.trackNumber m.trackCount m.primaryGenreName
          (m.releaseDate.take 4) := by
    simp [loadItunesMeta]
  rw [h, filter_head?_eq_find?]
  rfl

/-- **C4.** With the two default separators, a title containing the second
separator is *not* parsed by the current `parseVideoTitle`: the escaped
separators are spliced into the pattern as an array, which JavaScript joins
with a comma, so the middle group is the single literal `-,—` and the
function returns `{success:false}` through its no-match branch (the only
branch of the ESM function that returns at all). The predecessor of the
function inside the main script joins the escaped separators with `'|'` and
parses the same title successfully, splitting at the second separator as the
claim describes. -/
theorem parseVideoTitle_comma_join_bug :
    parseVideoTitle "Artist — Song".data ["-".data, "—".data] =
      .ok ⟨false, none, none⟩ ∧
    parseVideoTitleLegacy "Artist — Song".data ["-".data, "—".data] =
      ⟨true, some "Artist".data, some "Song".data⟩ := by decide

/-- **C5, counterexample.** On `'Band - "Track Name" - Lyrics'` with separator
`"-"` the ESM `parseVideoTitle` does not succeed at all, let alone resolve the
title to `Track Name`: the regex matches, so the function reaches the unbound
identifier `util` and throws `ReferenceError`. -/
theorem parseVideoTitle_greedy_counterexample :
    parseVideoTitle "Band - \"Track Name\" - Lyrics".data ["-".data] =
      .thrown referenceErrorUtil := by decide

/-- **C5, amended.** The single-match regex does match, with the greedy first
group capturing up to the *last* separator occurrence (first group
`Band - "Track Name"`, third group `Lyrics`); the ESM `parseTitle` then
throws `ReferenceError: util is not defined` at the post-processing step
instead of returning, so no title is produced. In the main-script predecessor,
where `util` is bound, the same input returns `{success:true}` with artist
`Band - "Track Name"` and title `Lyrics` — the noise phrase is left intact
because the regex `[\S ](lyrics)$` needs a preceding character and the phrase
constitutes the whole remaining title. In neither revision does the title
resolve to `Track Name`. -/
theorem parseVideoTitle_greedy_amended :
    execSearch ["-".data] "Band - \"Track Name\" - Lyrics".data =
      some ("Band - \"Track Name\"".data, "-".data, "Lyrics".data) ∧
    parseVideoTitle "Band - \"Track Name\" - Lyrics".data ["-".data] =
      .thrown referenceErrorUtil ∧
    parseVideoTitleLegacy "Band - \"Track Name\" - Lyrics".data ["-".data] =
      ⟨true, some "Band - \"Track Name\"".data, some "Lyrics".data⟩ := by decide

/-- **C6.** `removeTrailing` slices off `escapeStringRegexp(substring).length - 1`
characters instead of the matched phrase: for `lyrics` (escaped length 6) only
five characters are removed and the title keeps a stray `L`; the function's
own doc comment ("Remove subtr from string if string ends with substr") and
the spec agree that the whole phrase should go. The parenthesized phrase
`(official video)` (escaped length 18) happens to remove its 16 characters
plus the preceding space, so the claim's `Song` example holds for a direct
call of `removeTrailing`. A phrase preceded by a non-whitespace character is
also removed, since `[\S ]` accepts any character but
whitespace-other-than-space. The claim's `parseTitle` example cannot hold in
the ESM revision at all: there `parseVideoTitle` throws
`ReferenceError: util is not defined` on every matching title before reaching
`removeTrailing`; the main-script predecessor, where `util` is bound, does
yield `{success:true, artist:'Artist', title:'Song'}` on it. -/
theorem removeTrailing_partial_removal :
    removeTrailing "Song Lyrics".data "lyrics".data = "Song L".data ∧
    removeTrailing "XLyrics".data "lyrics".data = "XL".data ∧
    removeTrailing "Song (Official Video)".data "(official video)".data =
      "Song".data ∧
    parseVideoTitle "Artist - Song (Official Video)".data ["-".data] =
      .thrown referenceErrorUtil ∧
    parseVideoTitleLegacy "Artist - Song (Official Video)".data ["-".data] =
      ⟨true, some "Artist".data, some "Song".data⟩ := by decide

/-- **C8, counterexample.** Download failures and transcode failures are
distinct fatal condition classes, yet the process exits with the same code 25
for both: `Log.error` terminates the process with `process.exit(25)` before
the class-specific `process.exit(54)` / `process.exit(53)` lines can run. -/
theorem exit_codes_not_distinct :
    FailureClass.download ≠ FailureClass.transcode ∧
    processExitCode .download = processExitCode .transcode := by decide

/-- **C8, amended.** Every fatal failure exits with a non-zero code determined
by its class, and the usage-error code (55) is distinct from the others; but
download, transcode and generic runtime failures all share code 25, because
`Log.error` always exits 25 before the class-specific exits are reached. -/
theorem exit_codes_amended :
    processExitCode .usage = some 55 ∧
    processExitCode .download = some 25 ∧
    processExitCode .transcode = some 25 ∧
    processExitCode .generic = some 25 ∧
    (processExitCode .usage ≠ processExitCode .download ∧
     processExitCode .usage ≠ processExitCode .transcode ∧
     processExitCode .usage ≠ processExitCode .generic) ∧
    (processExitCode .usage ≠ some 0 ∧ processExitCode .download ≠ some 0 ∧
     processExitCode .transcode ≠ some 0 ∧ processExitCode .generic ≠ some 0) := by
  decide

/-- **C9.** The synthetic `artist + ' - ' + song` string is never empty (it
always contains the `' - '` infix), so `parseSongName` always returns it and
the `|| videoDetails.title` fallback is unreachable; with `media` absent both
operands print as `undefined` and the result is `"undefined - undefined"`. -/
theorem parseSongName_fallback_unreachable (vd : VideoDetails) :
    syntheticTitleOf vd ≠ [] ∧
    parseSongName vd = syntheticTitleOf vd ∧
    (vd.media = none → parseSongName vd = "undefined - undefined".data) := by
  have hne : jsStr (vd.media.bind MediaInfo.artist) ++ " - ".data
      ++ jsStr (vd.media.bind MediaInfo.song) ≠ [] := by
    intro h
    have hl := congrArg List.length h
    simp at hl
  refine ⟨by simp [syntheticTitleOf], ?_, ?_⟩
  · simp only [parseSongName, syntheticTitleOf]
    rw [if_neg hne]
  · intro hm
    simp [parseSongName, hm, jsStr]

theorem parseSongName_fallback_witness :
    parseSongName ⟨"Some video".data, none⟩ = "undefined - undefined".data :=
  (parseSongName_fallback_unreachable ⟨"Some video".data, none⟩).2.2 rfl

theorem maxAudioBitrate_cons (f : StreamFormat) (l : List StreamFormat) :
    maxAudioBitrate (f :: l) = max (bitrateOf f) (maxAudioBitrate l) := rfl

theorem hbfGo_characterization (l : List StreamFormat) : ∀ h tgt,
    (maxAudioBitrate l ≤ h → hbfGo l h tgt = tgt) ∧
    (h < maxAudioBitrate l →
      hbfGo l h tgt = l.find? fun f => bitrateOf f == maxAudioBitrate l) := by
  induction l with
  | nil =>
    intro h tgt
    exact ⟨fun _ => rfl, fun hlt => absurd hlt (by simp [maxAudioBitrate])⟩
  | cons f rest ih =>
    intro h tgt
    constructor
    · intro hle
      rw [maxAudioBitrate_cons] at hle
      have h1 : ¬h < bitrateOf f := by omega
      simp only [hbfGo, if_neg h1]
      exact (ih h tgt).1 (by omega)
    · intro hlt
      rw [maxAudioBitrate_cons] at hlt
      by_cases hf : h < bitrateOf f
      · simp only [hbfGo, if_pos hf]
        by_cases hr : maxAudioBitrate rest ≤ bitrateOf f
        · have hm : maxAudioBitrate (f :: rest) = bitrateOf f := by
            rw [maxAudioBitrate_cons]; omega
          rw [(ih (bitrateOf f) (some f)).1 hr, List.find?_cons_of_pos]
          simp [hm]
        · have hm : maxAudioBitrate (f :: rest) = maxAudioBitrate rest := by
            rw [maxAudioBitrate_cons]; omega
          rw [(ih (bitrateOf f) (some f)).2 (by omega), List.find?_cons_of_neg]
          · simp only [hm]
          · simp only [hm, beq_iff_eq]; omega
      · have hm : maxAudioBitrate (f :: rest) = maxAudioBitrate rest := by
          rw [maxAudioBitrate_cons]; omega
        simp only [hbfGo, if_neg hf]
        rw [(ih h tgt).2 (by omega), List.find?_cons_of_neg]
        · simp only [hm]
        · simp only [hm, beq_iff_eq]; omega

theorem maxAudioBitrate_eq_zero_of_all_zero {l : List StreamFormat}
    (h : ∀ f ∈ l, bitrateOf f = 0) : maxAudioBitrate l = 0 := by
  induction l with
  | nil => rfl
  | cons f rest ih =>
    rw [maxAudioBitrate_cons, h f (by simp), ih fun g hg => h g (by simp [hg])]
    simp

theorem le_maxAudioBitrate_of_mem {l : List StreamFormat} {f : StreamFormat}
    (h : f ∈ l) : bitrateOf f ≤ maxAudioBitrate l := by
  induction l with
  | nil => cases h
  | cons g rest ih =>
    rw [maxAudioBitrate_cons]
    rcases List.mem_cons.mp h with rfl | hmem
    · omega
    · have := ih hmem; omega

theorem maxAudioBitrate_attained {l : List StreamFormat}
    (h : 0 < maxAudioBitrate l) : ∃ f ∈ l, bitrateOf f = maxAudioBitrate l := by
  induction l with
  | nil => simp [maxAudioBitrate] at h
  | cons f rest ih =>
    rw [maxAudioBitrate_cons] at h ⊢
    by_cases hr : maxAudioBitrate rest ≤ bitrateOf f
    · exact ⟨f, by simp, by omega⟩
    · obtain ⟨g, hg, hgb⟩ := ih (by omega)
      exact ⟨g, by simp [hg], by omega⟩

/-- **C1.** `highestBitrateFormat` returns `null` when every entry's audio
bitrate is absent or zero; otherwise it returns the first entry encountered
whose `audioBitrate || 0` equals the global maximum (`find?` returns the first
entry satisfying its predicate). -/
theorem highestBitrateFormat_spec (info : VideoInfo) :
    ((∀ f ∈ info.formats, bitrateOf f = 0) → highestBitrateFormat info = none) ∧
    ((∃ f ∈ info.formats, 0 < bitrateOf f) →
      ∃ g, highestBitrateFormat info = some g ∧ g ∈ info.formats ∧
        bitrateOf g = maxAudioBitrate info.formats ∧
        info.formats.find? (fun f => bitrateOf f == maxAudioBitrate info.formats)
          = some g) := by
  constructor
  · intro hz
    exact (hbfGo_characterization info.formats 0 none).1
      (by rw [maxAudioBitrate_eq_zero_of_all_zero hz])
  · rintro ⟨f, hf, hpos⟩
    have hmax : 0 < maxAudioBitrate info.formats :=
      lt_of_lt_of_le hpos (le_maxAudioBitrate_of_mem hf)
    have hrun := (hbfGo_characterization info.formats 0 none).2 hmax
    obtain ⟨g, hg, hgb⟩ := maxAudioBitrate_attained hmax
    have hsome : (info.formats.find?
        fun f => bitrateOf f == maxAudioBitrate info.formats).isSome := by
      rw [List.find?_isSome]
      exact ⟨g, hg, by simp [hgb]⟩
    obtain ⟨g', hg'⟩ := Option.isSome_iff_exists.mp hsome
    refine ⟨g', ?_, List.mem_of_find?_eq_some hg', ?_, hg'⟩
    · rw [highestBitrateFormat, hrun, hg']
    · have := List.find?_some hg'
      simpa [beq_iff_eq] using this

/-- **C1, witness.** A list whose bitrates are all absent or zero yields
`null`; a list with qualifying bitrates yields the first maximal entry. -/
theorem highestBitrateFormat_spec_witness :
    highestBitrateFormat ⟨[⟨17, none, some 40, none⟩, ⟨18, some 0, none, none⟩]⟩
        = none ∧
    ∃ g, highestBitrateFormat
        ⟨[⟨18, none, some 1000, none⟩, ⟨140, some 128, some 900, none⟩,
          ⟨141, some 128, some 800, none⟩, ⟨22, some 96, some 700, none⟩]⟩
        = some g ∧
      g ∈ ([⟨18, none, some 1000, none⟩, ⟨140, some 128, some 900, none⟩,
          ⟨141, some 128, some 800, none⟩, ⟨22, some 96, some 700, none⟩] :
        List StreamFormat) ∧
      bitrateOf g = maxAudioBitrate
        [⟨18, none, some 1000, none⟩, ⟨140, some 128, some 900, none⟩,
          ⟨141, some 128, some 800, none⟩, ⟨22, some 96, some 700, none⟩] ∧
      ([⟨18, none, some 1000, none⟩, ⟨140, some 128, some 900, none⟩,
          ⟨141, some 128, some 800, none⟩, ⟨22, some 96, some 700, none⟩] :
        List StreamFormat).find?
          (fun f => bitrateOf f == maxAudioBitrate
            [⟨18, none, some 1000, none⟩, ⟨140, some 128, some 900, none⟩,
              ⟨141, some 128, some 800, none⟩, ⟨22, some 96, some 700, none⟩])
        = some g :=
  ⟨(highestBitrateFormat_spec ⟨[⟨17, none, some 40, none⟩, ⟨18, some 0, none, none⟩]⟩).1
      (by decide),
   (highestBitrateFormat_spec
      ⟨[⟨18, none, some 1000, none⟩, ⟨140, some 128, some 900, none⟩,
        ⟨141, some 128, some 800, none⟩, ⟨22, some 96, some 700, none⟩]⟩).2
      (by decide)⟩

theorem minQualifiedClen_cons (f : StreamFormat) (l : List StreamFormat) :
    minQualifiedClen (f :: l) =
      if qualifies f then min (clenVal f) (minQualifiedClen l)
      else minQualifiedClen l := rfl

theorem ssfGo_characterization (l : List StreamFormat) : ∀ s tgt,
    s ≤ numberMaxValue →
    (s ≤ minQualifiedClen l → ssfGo l s tgt = tgt) ∧
    (minQualifiedClen l < s →
      ssfGo l s tgt = l.find? fun f => qualifies f
        && (clenVal f == minQualifiedClen l)) := by
  induction l with
  | nil =>
    intro s tgt hs
    refine ⟨fun _ => rfl, fun hlt => absurd hlt ?_⟩
    simp only [minQualifiedClen, List.foldr_nil]
    omega
  | cons f rest ih =>
    intro s tgt hs
    by_cases hq : qualifies f = true
    · have hbf : (bitrateOf f == 0) = false := by
        have h1 := hq
        rw [qualifies, Bool.and_eq_true] at h1
        rcases h1 with ⟨h1, _⟩
        rwa [Bool.not_eq_true'] at h1
      obtain ⟨c, hc⟩ : ∃ c, f.clen = some c := by
        have h2 := hq
        rw [qualifies, Bool.and_eq_true] at h2
        exact Option.isSome_iff_exists.mp h2.2
      have hcv : clenVal f = c := by simp [clenVal, hc]
      rw [minQualifiedClen_cons, if_pos hq]
      constructor
      · intro hle
        have h1 : ¬c < s := by omega
        simp only [ssfGo, hbf, Bool.false_eq_true, if_false, hc]
        rw [if_neg h1]
        exact (ih s tgt hs).1 (by omega)
      · intro hlt
        by_cases hcs : c < s
        · simp only [ssfGo, hbf, Bool.false_eq_true, if_false, hc]
          rw [if_pos hcs]
          by_cases hmr : c ≤ minQualifiedClen rest
          · have hmin : min (clenVal f) (minQualifiedClen rest) = c := by omega
            rw [hmin, (ih c (some f) (by omega)).1 (by omega),
              List.find?_cons_of_pos]
            simp [hq, hcv]
          · have hmin : min (clenVal f) (minQualifiedClen rest)
                = minQualifiedClen rest := by omega
            rw [hmin, (ih c (some f) (by omega)).2 (by omega),
              List.find?_cons_of_neg]
            simp [hq, hcv]
            omega
        · simp only [ssfGo, hbf, Bool.false_eq_true, if_false, hc]
          rw [if_neg hcs]
          have hmr : minQualifiedClen rest < s := by omega
          have hmin : min (clenVal f) (minQualifiedClen rest)
              = minQualifiedClen rest := by omega
          rw [hmin, (ih s tgt hs).2 hmr, List.find?_cons_of_neg]
          simp [hq, hcv]
          omega
    · have hskip : ssfGo (f :: rest) s tgt = ssfGo rest s tgt := by
        cases hbf : (bitrateOf f == 0) with
        | true => simp [ssfGo, hbf]
        | false =>
          have hcn : f.clen = none := by
            rcases hn : f.clen with _ | c
            · rfl
            · have : qualifies f = true := by simp [qualifies, hbf, hn]
              exact absurd this hq
          simp only [ssfGo, hbf, Bool.false_eq_true, if_false, hcn]
      rw [hskip, minQualifiedClen_cons, if_neg hq]
      refine ⟨fun hle => (ih s tgt hs).1 hle, fun hlt => ?_⟩
      rw [(ih s tgt hs).2 hlt, List.find?_cons_of_neg]
      simp [hq]

theorem lt_numberMaxValue_of_small {n : Nat} (h : n < 2 ^ 10) : n < numberMaxValue :=
  lt_of_lt_of_le h (Nat.pow_le_pow_right (by norm_num) (by norm_num))

theorem minQualifiedClen_of_none {l : List StreamFormat}
    (h : ∀ f ∈ l, qualifies f = false) : minQualifiedClen l = numberMaxValue := by
  induction l with
  | nil => rfl
  | cons f rest ih =>
    rw [minQualifiedClen_cons, if_neg (by simp [h f (by simp)])]
    exact ih fun g hg => h g (by simp [hg])

theorem minQualifiedClen_le_of_mem {l : List StreamFormat} {f : StreamFormat}
    (hf : f ∈ l) (hq : qualifies f = true) : minQualifiedClen l ≤ clenVal f := by
  induction l with
  | nil => cases hf
  | cons g rest ih =>
    rw [minQualifiedClen_cons]
    rcases List.mem_cons.mp hf with rfl | hmem
    · rw [if_pos hq]; omega
    · have := ih hmem
      by_cases hg : qualifies g = true
      · rw [if_pos hg]; omega
      · rw [if_neg hg]; omega

theorem minQualifiedClen_attained {l : List StreamFormat}
    (h : minQualifiedClen l < numberMaxValue) :
    ∃ f ∈ l, qualifies f = true ∧ clenVal f = minQualifiedClen l := by
  induction l with
  | nil => simp only [minQualifiedClen, List.foldr_nil] at h; omega
  | cons f rest ih =>
    rw [minQualifiedClen_cons] at h ⊢
    by_cases hq : qualifies f = true
    · rw [if_pos hq] at h ⊢
      by_cases hle : clenVal f ≤ minQualifiedClen rest
      · exact ⟨f, by simp, hq, by omega⟩
      · obtain ⟨g, hg, hgq, hgc⟩ := ih (by omega)
        exact ⟨g, by simp [hg], hgq, by omega⟩
    · rw [if_neg hq] at h ⊢
      obtain ⟨g, hg, hgq, hgc⟩ := ih h
      exact ⟨g, by simp [hg], hgq, hgc⟩

/-- **C2, counterexample.** An entry with a *defined* audio bitrate of 0 and a
defined content length is skipped by `smallestSizeFormat` (the JS guard
`!format.audioBitrate` treats 0 like an absent value), so the selector
returns `null` although an entry with both attributes defined exists — the
claim requires that entry to qualify and be returned. -/
theorem smallestSizeFormat_zero_bitrate_counterexample :
    smallestSizeFormat ⟨[⟨133, some 0, some 5, none⟩]⟩ = none ∧
    (StreamFormat.mk 133 (some 0) (some 5) none).audioBitrate.isSome = true ∧
    (StreamFormat.mk 133 (some 0) (some 5) none).clen.isSome = true := by decide

/-- **C2, amended.** `smallestSizeFormat` considers only entries whose audio
bitrate is defined *and non-zero* and whose content length is defined (both
attributes truthy), skipping the others entirely; among the qualifying
entries it returns the first one with the least content length, and `null`
when no entry qualifies. (Content lengths are assumed below the
`Number.MAX_VALUE` sentinel, as every actual JS number is.) -/
theorem smallestSizeFormat_spec (info : VideoInfo) :
    ((∀ f ∈ info.formats, qualifies f = false) → smallestSizeFormat info = none) ∧
    ((∃ f ∈ info.formats, qualifies f = true ∧ clenVal f < numberMaxValue) →
      ∃ g, smallestSizeFormat info = some g ∧ g ∈ info.formats ∧
        qualifies g = true ∧ clenVal g = minQualifiedClen info.formats ∧
        info.formats.find?
          (fun f => qualifies f && (clenVal f == minQualifiedClen info.formats))
          = some g) := by
  constructor
  · intro hz
    exact (ssfGo_characterization info.formats numberMaxValue none le_rfl).1
      (by rw [minQualifiedClen_of_none hz])
  · rintro ⟨f, hf, hfq, hfc⟩
    have hmin : minQualifiedClen info.formats < numberMaxValue :=
      lt_of_le_of_lt (minQualifiedClen_le_of_mem hf hfq) hfc
    have hrun := (ssfGo_characterization info.formats numberMaxValue none
      le_rfl).2 hmin
    obtain ⟨g, hg, hgq, hgc⟩ := minQualifiedClen_attained hmin
    have hsome : (info.formats.find?
        fun f => qualifies f && (clenVal f == minQualifiedClen info.formats)).isSome := by
      rw [List.find?_isSome]
      exact ⟨g, hg, by simp [hgq, hgc]⟩
    obtain ⟨g', hg'⟩ := Option.isSome_iff_exists.mp hsome
    have hp := List.find?_some hg'
    rw [Bool.and_eq_true, beq_iff_eq] at hp
    exact ⟨g', by rw [smallestSizeFormat, hrun, hg'],
      List.mem_of_find?_eq_some hg', hp.1, hp.2, hg'⟩

/-- **C2, witness.** A list whose entries all lack a truthy bitrate or a
truthy content length yields `null`; with qualifying entries the first
least-content-length entry is returned. -/
theorem smallestSizeFormat_spec_witness :
    smallestSizeFormat ⟨[⟨133, some 0, some 5, none⟩, ⟨134, some 64, none, none⟩]⟩
        = none ∧
    ∃ g, smallestSizeFormat
        ⟨[⟨18, none, some 1000, none⟩, ⟨140, some 128, some 900, none⟩,
          ⟨141, some 128, some 800, none⟩, ⟨22, some 96, some 700, none⟩]⟩
        = some g ∧
      g ∈ ([⟨18, none, some 1000, none⟩, ⟨140, some 128, some 900, none⟩,
          ⟨141, some 128, some 800, none⟩, ⟨22, some 96, some 700, none⟩] :
        List StreamFormat) ∧
      qualifies g = true ∧
      clenVal g = minQualifiedClen
        [⟨18, none, some 1000, none⟩, ⟨140, some 128, some 900, none⟩,
          ⟨141, some 128, some 800, none⟩, ⟨22, some 96, some 700, none⟩] ∧
      ([⟨18, none, some 1000, none⟩, ⟨140, some 128, some 900, none⟩,
          ⟨141, some 128, some 800, none⟩, ⟨22, some 96, some 700, none⟩] :
        List StreamFormat).find?
          (fun f => qualifies f && (clenVal f == minQualifiedClen
            [⟨18, none, some 1000, none⟩, ⟨140, some 128, some 900, none⟩,
              ⟨141, some 128, some 800, none⟩, ⟨22, some 96, some 700, none⟩]))
        = some g :=
  ⟨(smallestSizeFormat_spec
      ⟨[⟨133, some 0, some 5, none⟩, ⟨134, some 64, none, none⟩]⟩).1 (by decide),
   (smallestSizeFormat_spec
      ⟨[⟨18, none, some 1000, none⟩, ⟨140, some 128, some 900, none⟩,
        ⟨141, some 128, some 800, none⟩, ⟨22, some 96, some 700, none⟩]⟩).2
      ⟨⟨22, some 96, some 700, none⟩, by decide, by decide,
        lt_numberMaxValue_of_small (by decide)⟩⟩

theorem hbfGo_positive (l : List StreamFormat) : ∀ h tgt g,
    (∀ g', tgt = some g' → 0 < bitrateOf g') →
    hbfGo l h tgt = some g → 0 < bitrateOf g := by
  induction l with
  | nil => intro h tgt g hinv hrun; exact hinv g hrun
  | cons f rest ih =>
    intro h tgt g hinv hrun
    by_cases hf : h < bitrateOf f
    · simp only [hbfGo, if_pos hf] at hrun
      exact ih (bitrateOf f) (some f) g
        (fun g' hg' => by cases hg'; omega) hrun
    · simp only [hbfGo, if_neg hf] at hrun
      exact ih h tgt g hinv hrun

theorem ssfGo_positive (l : List StreamFormat) : ∀ s tgt g,
    (∀ g', tgt = some g' → 0 < bitrateOf g') →
    ssfGo l s tgt = some g → 0 < bitrateOf g := by
  induction l with
  | nil => intro s tgt g hinv hrun; exact hinv g hrun
  | cons f rest ih =>
    intro s tgt g hinv hrun
    cases hbf : (bitrateOf f == 0) with
    | true => simp only [ssfGo, hbf, if_true] at hrun; exact ih s tgt g hinv hrun
    | false =>
      have hpos : 0 < bitrateOf f := by
        have hne : bitrateOf f ≠ 0 := by simp at hbf; exact hbf
        omega
      rcases hc : f.clen with _ | c
      · simp only [ssfGo, hbf, Bool.false_eq_true, if_false, hc] at hrun
        exact ih s tgt g hinv hrun
      · simp only [ssfGo, hbf, Bool.false_eq_true, if_false, hc] at hrun
        by_cases hcs : c < s
        · rw [if_pos hcs] at hrun
          exact ih c (some f) g (fun g' hg' => by cases hg'; omega) hrun
        · rw [if_neg hcs] at hrun
          exact ih s tgt g hinv hrun

/-- **C3.** Whenever either selector returns a non-null format, that format
has a *defined* audio bitrate strictly greater than 0: `highestBitrateFormat`
only updates its target when the bitrate strictly exceeds the running maximum
(initially 0), and `smallestSizeFormat` skips every entry with a falsy
bitrate before considering it. -/
theorem selected_format_has_positive_bitrate (info : VideoInfo) (g : StreamFormat)
    (h : highestBitrateFormat info = some g ∨ smallestSizeFormat info = some g) :
    ∃ b, g.audioBitrate = some b ∧ 0 < b := by
  have hpos : 0 < bitrateOf g := by
    rcases h with h | h
    · exact hbfGo_positive info.formats 0 none g (by intro g' h'; cases h') h
    · exact ssfGo_positive info.formats numberMaxValue none g
        (by intro g' h'; cases h') h
  rcases hb : g.audioBitrate with _ | b
  · rw [bitrateOf, hb] at hpos; simp at hpos
  · exact ⟨b, rfl, by rw [bitrateOf, hb] at hpos; simpa using hpos⟩

/-- **C3, witness.** Both selectors on a concrete list return formats whose
audio bitrate is defined and positive. -/
theorem selected_format_has_positive_bitrate_witness :
    (∃ b, (StreamFormat.mk 140 (some 128) (some 900) none).audioBitrate = some b
      ∧ 0 < b) ∧
    (∃ b, (StreamFormat.mk 22 (some 96) (some 700) none).audioBitrate = some b
      ∧ 0 < b) :=
  ⟨selected_format_has_positive_bitrate
      ⟨[⟨18, none, some 1000, none⟩, ⟨140, some 128, some 900, none⟩]⟩
      ⟨140, some 128, some 900, none⟩ (Or.inl (by decide)),
   selected_format_has_positive_bitrate
      ⟨[⟨18, none, some 1000, none⟩, ⟨22, some 96, some 700, none⟩]⟩
      ⟨22, some 96, some 700, none⟩
      (Or.inr (by set_option maxRecDepth 8192 in decide))⟩

theorem prettyTimeLoop_characterization : ∀ t mins,
    prettyTimeLoop mins t = (mins + t / 60, t % 60) := by
  intro t
  induction t using Nat.strong_induction_on with
  | _ t ih =>
    intro mins
    rw [prettyTimeLoop]
    by_cases h : 60 ≤ t
    · rw [if_pos h, ih (t - 60) (by omega) (mins + 1)]
      have h1 : (t - 60) / 60 = t / 60 - 1 := by omega
      have h2 : (t - 60) % 60 = t % 60 := by omega
      have h3 : 1 ≤ t / 60 := by omega
      rw [Prod.mk.injEq]
      omega
    · rw [if_neg h]
      have h1 : t / 60 = 0 := by omega
      have h2 : t % 60 = t := by omega
      rw [Prod.mk.injEq]
      omega

theorem jsSub60_iterate_inf (k : Nat) : jsSub60^[k] JsTime.inf = JsTime.inf := by
  induction k with
  | zero => rfl
  | succ n ih => rw [Function.iterate_succ_apply', ih]; rfl

theorem jsSub60_iterate_fin (q : ℚ) (k : Nat) :
    jsSub60^[k] (JsTime.fin q) = JsTime.fin (q - 60 * k) := by
  induction k with
  | zero => simp
  | succ n ih =>
    rw [Function.iterate_succ_apply', ih]
    show JsTime.fin (q - 60 * n - 60) = _
    push_cast
    ring_nf

/-- **C10.** The `while (timeInSeconds >= 60)` loop strictly decreases a
finite value by 60 each iteration, hence terminates: after finitely many
subtractions the guard fails for every non-negative finite input. For every
non-negative integer `t`, `prettyTime t` renders `⌊t/60⌋ : (t mod 60)` with a
leading zero when the seconds are below 10. For the non-finite input
`Infinity`, `Infinity >= 60` holds and `Infinity - 60` is `Infinity`, so the
guard holds after every number of iterations and the loop never exits. -/
theorem prettyTime_spec :
    (∀ t : Nat, prettyTime t = (toString (t / 60)).data ++ ':' ::
      (if t % 60 < 10 then '0' :: (toString (t % 60)).data
       else (toString (t % 60)).data)) ∧
    (∀ q : ℚ, jsGe60 (JsTime.fin q) = true →
      jsSub60 (JsTime.fin q) = JsTime.fin (q - 60) ∧ q - 60 < q) ∧
    (∀ q : ℚ, 0 ≤ q → ∃ k, jsGe60 (jsSub60^[k] (JsTime.fin q)) = false) ∧
    (∀ k, jsGe60 (jsSub60^[k] JsTime.inf) = true) := by
  refine ⟨?_, ?_, ?_, ?_⟩
  · intro t
    rw [prettyTime, prettyTimeLoop_characterization]
    simp
  · intro q _
    exact ⟨rfl, by linarith⟩
  · intro q hq
    refine ⟨⌈q⌉.toNat, ?_⟩
    rw [jsSub60_iterate_fin]
    have hle : q ≤ (⌈q⌉.toNat : ℚ) := by
      calc q ≤ (⌈q⌉ : ℚ) := Int.le_ceil q
        _ = ((⌈q⌉.toNat : ℤ) : ℚ) := by
            rw [Int.toNat_of_nonneg (Int.ceil_nonneg hq)]
        _ = (⌈q⌉.toNat : ℚ) := by push_cast; rfl
    have hlt : q - 60 * (⌈q⌉.toNat : ℚ) < 60 := by
      have h60 : (⌈q⌉.toNat : ℚ) ≤ 60 * (⌈q⌉.toNat : ℚ) := by
        have : (0 : ℚ) ≤ (⌈q⌉.toNat : ℚ) := by positivity
        nlinarith
      linarith
    simp only [jsGe60, decide_eq_false_iff_not, not_le]
    exact hlt
  · intro k
    rw [jsSub60_iterate_inf]
    rfl

/-- **C10, witness.** Concrete instances: `prettyTime 125 = "2:05"`, one loop
step on the finite value 61 decreases it, and the finite value 0 exits the
loop after some number of steps. -/
theorem prettyTime_spec_witness :
    prettyTime 125 = "2:05".data ∧
    ((61 : ℚ) - 60 < 61) ∧
    (∃ k, jsGe60 (jsSub60^[k] (JsTime.fin 0)) = false) :=
  ⟨by rw [prettyTime_spec.1 125]; decide,
   (prettyTime_spec.2.1 61 (by decide)).2,
   prettyTime_spec.2.2.1 0 le_rfl⟩
